import Mathlib

/-!
Verification of the octoevents event-reconciliation engine.

The definitions below are a shallow embedding of the Go program: `Event`,
`mergeEvents`, `hasChanges`, `assignSequentialCodes`, `convertToOutputFormat`,
`loadExistingEvents`, `saveEvents`, `getCachedEventsFromDir`,
`fetchDavidKendallData` and `fetchAndUpdateEvents` are translated from the
repository sources.  Go `time.Time` values are modelled as UTC calendar
records at millisecond precision (every timestamp that flows through the
persisted pipeline is such a value); Go's unordered map iteration followed by
`sort.Slice` is modelled deterministically by an insertion-ordered
association list followed by a merge sort — every property proved here is
insensitive to that choice of ordering.
-/

deriving instance DecidableEq for Except

namespace Octoevents

/-- Model of a Go `time.Time` instant, restricted to UTC at millisecond
precision, stored as broken-down calendar components. -/
structure GoTime where
  year : Nat
  month : Nat
  day : Nat
  hour : Nat
  minute : Nat
  second : Nat
  milli : Nat
deriving DecidableEq, Repr

/-- Strict lexicographic comparison of lists of naturals (used pointwise on
the calendar components, mirroring instant comparison of UTC times). -/
def lexLt : List Nat → List Nat → Bool
  | [], _ => false
  | _ :: _, [] => false
  | a :: as, b :: bs => decide (a < b) || (decide (a = b) && lexLt as bs)

/-- The calendar components of a time, most significant first. -/
def GoTime.fields (t : GoTime) : List Nat :=
  [t.year, t.month, t.day, t.hour, t.minute, t.second, t.milli]

/-- Go `time.Time.Before`: instant comparison, which for UTC calendar records
is lexicographic comparison of the components. -/
def GoTime.before (a b : GoTime) : Bool := lexLt a.fields b.fields

theorem lexLt_irrefl : ∀ (a : List Nat), lexLt a a = false := by
  intro a
  induction a with
  | nil => rfl
  | cons x as ih => simp [lexLt, ih]

theorem lexLt_trans : ∀ (a b c : List Nat),
    lexLt a b = true → lexLt b c = true → lexLt a c = true := by
  intro a
  induction a with
  | nil => intro b c h1 _; simp [lexLt] at h1
  | cons x as ih =>
    intro b c h1 h2
    cases b with
    | nil => simp [lexLt] at h1
    | cons y bs =>
      cases c with
      | nil => simp [lexLt] at h2
      | cons z cs =>
        simp only [lexLt, Bool.or_eq_true, Bool.and_eq_true, decide_eq_true_eq] at h1 h2 ⊢
        rcases h1 with h1 | ⟨rfl, h1⟩
        · rcases h2 with h2 | ⟨rfl, h2⟩
          · exact Or.inl (lt_trans h1 h2)
          · exact Or.inl h1
        · rcases h2 with h2 | ⟨rfl, h2⟩
          · exact Or.inl h2
          · exact Or.inr ⟨rfl, ih bs cs h1 h2⟩

theorem lexLt_antisymm : ∀ (a b : List Nat), a.length = b.length →
    lexLt a b = false → lexLt b a = false → a = b := by
  intro a
  induction a with
  | nil =>
    intro b hlen _ _
    cases b with
    | nil => rfl
    | cons y bs => simp at hlen
  | cons x as ih =>
    intro b hlen h1 h2
    cases b with
    | nil => simp at hlen
    | cons y bs =>
      simp only [lexLt, Bool.or_eq_false_iff, Bool.and_eq_false_iff,
        decide_eq_false_iff_not] at h1 h2
      have hxy : x = y := by
        rcases h1 with ⟨hlt1, h1⟩
        rcases h2 with ⟨hlt2, h2⟩
        omega
      subst hxy
      have htail : as = bs := by
        apply ih bs (by simpa using hlen)
        · rcases h1 with ⟨_, h1⟩
          rcases h1 with h1 | h1
          · exact absurd rfl h1
          · simpa using h1
        · rcases h2 with ⟨_, h2⟩
          rcases h2 with h2 | h2
          · exact absurd rfl h2
          · simpa using h2
      rw [htail]

theorem GoTime.eq_of_fields_eq {a b : GoTime} (h : a.fields = b.fields) : a = b := by
  cases a
  cases b
  simp only [GoTime.fields, List.cons.injEq, and_true] at h
  obtain ⟨h1, h2, h3, h4, h5, h6, h7⟩ := h
  subst h1; subst h2; subst h3; subst h4; subst h5; subst h6; subst h7
  rfl

theorem GoTime.before_irrefl (a : GoTime) : a.before a = false :=
  lexLt_irrefl a.fields

theorem GoTime.before_trans {a b c : GoTime}
    (h1 : a.before b = true) (h2 : b.before c = true) : a.before c = true :=
  lexLt_trans a.fields b.fields c.fields h1 h2

theorem GoTime.eq_of_not_before {a b : GoTime}
    (h1 : a.before b = false) (h2 : b.before a = false) : a = b :=
  GoTime.eq_of_fields_eq (lexLt_antisymm a.fields b.fields rfl h1 h2)

/-- Big-endian fixed-width decimal rendering: exactly `w` digit characters of
`n % 10 ^ w` (Go's zero-padded numeric formatting). -/
def padChars : Nat → Nat → List Char
  | 0, _ => []
  | w + 1, n => Nat.digitChar (n / 10 ^ w % 10) :: padChars w n

/-- Consume exactly `w` decimal digit characters, accumulating their value
(the digit-run scanner of Go `time.Parse`). -/
def readDigits : Nat → Nat → List Char → Option (Nat × List Char)
  | 0, acc, l => some (acc, l)
  | _ + 1, _, [] => none
  | w + 1, acc, c :: l =>
      if c.isDigit then readDigits w (acc * 10 + (c.toNat - 48)) l else none

/-- Expect a literal character (literal bytes of a Go time layout). -/
def expectChar (c : Char) : List Char → Option (List Char)
  | [] => none
  | x :: l => if x = c then some l else none

theorem digitChar_isDigit {d : Nat} (h : d < 10) : (Nat.digitChar d).isDigit = true := by
  interval_cases d <;> decide

theorem digitChar_toNat {d : Nat} (h : d < 10) : (Nat.digitChar d).toNat - 48 = d := by
  interval_cases d <;> decide

theorem readDigits_padChars :
    ∀ (w acc n : Nat) (rest : List Char),
      readDigits w acc (padChars w n ++ rest) = some (acc * 10 ^ w + n % 10 ^ w, rest) := by
  intro w
  induction w with
  | zero => intro acc n rest; simp [readDigits, padChars, Nat.mod_one]
  | succ w ih =>
    intro acc n rest
    have hd : n / 10 ^ w % 10 < 10 := Nat.mod_lt _ (by omega)
    have step : readDigits (w + 1) acc (padChars (w + 1) n ++ rest)
        = readDigits w (acc * 10 + (n / 10 ^ w % 10)) (padChars w n ++ rest) := by
      simp [padChars, readDigits, digitChar_isDigit hd, digitChar_toNat hd]
    rw [step, ih]
    have harith : (acc * 10 + n / 10 ^ w % 10) * 10 ^ w + n % 10 ^ w
        = acc * 10 ^ (w + 1) + n % 10 ^ (w + 1) := by
      rw [pow_succ, Nat.mod_mul]
      ring
    rw [harith]

theorem readDigits_zero_padChars (w n : Nat) (rest : List Char) :
    readDigits w 0 (padChars w n ++ rest) = some (n % 10 ^ w, rest) := by
  simpa using readDigits_padChars w 0 n rest

theorem expectChar_cons_self (c : Char) (l : List Char) :
    expectChar c (c :: l) = some l := by
  simp [expectChar]

/-- Number of decimal digits of `n`, computed with structural fuel so that the
kernel can evaluate it on concrete inputs. -/
def decimalWidthAux : Nat → Nat → Nat
  | 0, _ => 1
  | fuel + 1, n => if n < 10 then 1 else decimalWidthAux fuel (n / 10) + 1

def decimalWidth (n : Nat) : Nat := decimalWidthAux n n

/-- Go's year formatting for the layout unit `2006` (`appendInt(year, 4)`):
zero-padded to four digits, and all decimal digits when the year needs more
than four. -/
def yearChars (y : Nat) : List Char :=
  if y < 10000 then padChars 4 y else padChars (decimalWidth y) y

/-- Rendering of the layout `2006-01-02T15:04:05.000Z` used by
`convertToOutputFormat` for the published file.  The trailing `Z` is a
literal byte of the layout; the times modelled here are UTC. -/
def formatMilliChars (t : GoTime) : List Char :=
  yearChars t.year ++ '-' :: (padChars 2 t.month ++ '-' :: (padChars 2 t.day ++
    'T' :: (padChars 2 t.hour ++ ':' :: (padChars 2 t.minute ++
    ':' :: (padChars 2 t.second ++ '.' :: (padChars 3 t.milli ++ ['Z']))))))

/-- Rendering of `time.RFC3339` (`2006-01-02T15:04:05Z07:00`) for a UTC time:
second granularity — the milliseconds are dropped — with a single `Z` zone
marker.  This is the string `mergeEvents` and `hasChanges` build their keys
from. -/
def rfc3339Chars (t : GoTime) : List Char :=
  yearChars t.year ++ '-' :: (padChars 2 t.month ++ '-' :: (padChars 2 t.day ++
    'T' :: (padChars 2 t.hour ++ ':' :: (padChars 2 t.minute ++
    ':' :: (padChars 2 t.second ++ ['Z'])))))

def isLeapYear (y : Nat) : Bool :=
  y % 4 == 0 && (y % 100 != 0 || y % 400 == 0)

/-- Go `daysIn`: length of a month, accounting for leap years. -/
def daysIn (month year : Nat) : Nat :=
  if month = 2 then (if isLeapYear year then 29 else 28)
  else if month = 4 ∨ month = 6 ∨ month = 9 ∨ month = 11 then 30
  else 31

/-- The component range checks performed by Go `time.Parse` after scanning. -/
def validParts (y mo d h mi s : Nat) : Bool :=
  decide (1 ≤ mo) && decide (mo ≤ 12) && decide (1 ≤ d) && decide (d ≤ daysIn mo y) &&
    decide (h ≤ 23) && decide (mi ≤ 59) && decide (s ≤ 59)

/-- A calendar record denoting an actual UTC instant of whole-millisecond
precision with a four-digit year — the domain on which the program's fixed
time layouts are total. -/
def validTime (t : GoTime) : Bool :=
  validParts t.year t.month t.day t.hour t.minute t.second &&
    decide (t.year ≤ 9999) && decide (t.milli ≤ 999)

/-- Go `time.Parse` with layout `2006-01-02T15:04:05.000Z`: four year digits,
literal separators, exactly three fractional digits, a literal `Z`, nothing
left over, then the component range checks.  Absent zone information the
result is UTC. -/
def parseMilliChars (l : List Char) : Option GoTime :=
  match readDigits 4 0 l with
  | none => none
  | some (y, l) =>
  match expectChar '-' l with
  | none => none
  | some l =>
  match readDigits 2 0 l with
  | none => none
  | some (mo, l) =>
  match expectChar '-' l with
  | none => none
  | some l =>
  match readDigits 2 0 l with
  | none => none
  | some (d, l) =>
  match expectChar 'T' l with
  | none => none
  | some l =>
  match readDigits 2 0 l with
  | none => none
  | some (h, l) =>
  match expectChar ':' l with
  | none => none
  | some l =>
  match readDigits 2 0 l with
  | none => none
  | some (mi, l) =>
  match expectChar ':' l with
  | none => none
  | some l =>
  match readDigits 2 0 l with
  | none => none
  | some (s, l) =>
  match expectChar '.' l with
  | none => none
  | some l =>
  match readDigits 3 0 l with
  | none => none
  | some (ms, l) =>
  match expectChar 'Z' l with
  | none => none
  | some [] => if validParts y mo d h mi s then some ⟨y, mo, d, h, mi, s, ms⟩ else none
  | some (_ :: _) => none

theorem yearChars_of_le {y : Nat} (h : y ≤ 9999) : yearChars y = padChars 4 y := by
  rw [yearChars, if_pos (by omega)]

set_option maxHeartbeats 1000000 in
/-- Parsing inverts formatting on every valid UTC millisecond instant. -/
theorem parseMilli_formatMilli (t : GoTime) (h : validTime t = true) :
    parseMilliChars (formatMilliChars t) = some t := by
  obtain ⟨y, mo, d, hh, mi, s, ms⟩ := t
  simp only [validTime, validParts, Bool.and_eq_true, decide_eq_true_eq, and_assoc] at h
  obtain ⟨hmo1, hmo2, hd1, hd2, hh1, hmi1, hs1, hy, hms⟩ := h
  have hy4 : y % 10 ^ 4 = y := Nat.mod_eq_of_lt (by omega)
  have hmo' : mo % 10 ^ 2 = mo := Nat.mod_eq_of_lt (by omega)
  have hdm : daysIn mo y ≤ 31 := by
    rw [daysIn]
    split
    · split <;> omega
    · split <;> omega
  have hd' : d % 10 ^ 2 = d := Nat.mod_eq_of_lt (by omega)
  have hh' : hh % 10 ^ 2 = hh := Nat.mod_eq_of_lt (by omega)
  have hmi' : mi % 10 ^ 2 = mi := Nat.mod_eq_of_lt (by omega)
  have hs' : s % 10 ^ 2 = s := Nat.mod_eq_of_lt (by omega)
  have hms' : ms % 10 ^ 3 = ms := Nat.mod_eq_of_lt (by omega)
  simp only [formatMilliChars, yearChars_of_le hy]
  simp only [parseMilliChars, readDigits_zero_padChars, expectChar_cons_self,
    Option.bind_eq_bind, Option.some_bind, hy4, hmo', hd', hh', hmi', hs', hms']
  have hvalid : validParts y mo d hh mi s = true := by
    simp only [validParts, Bool.and_eq_true, decide_eq_true_eq]
    refine ⟨⟨⟨⟨⟨⟨?_, ?_⟩, ?_⟩, ?_⟩, ?_⟩, ?_⟩, ?_⟩ <;> omega
  simp [hvalid]

/-- The internal event record (Go struct `Event`).  Field defaults are the Go
zero values. -/
structure Event where
  code : String
  endAt : GoTime
  isEventParticipant : Bool := false
  name : String := ""
  typename : String := ""
  startAt : GoTime
  isTest : Option Bool := none
deriving DecidableEq, Repr

instance : Inhabited GoTime := ⟨⟨0, 0, 0, 0, 0, 0, 0⟩⟩

instance : Inhabited Event := ⟨{ code := "", startAt := default, endAt := default }⟩

/-- The deduplication key built by `mergeEvents` and `hasChanges`:
`StartAt.Format(time.RFC3339) + "_" + EndAt.Format(time.RFC3339)`.
Because RFC3339 carries no fractional seconds, the key has second
granularity. -/
def eventKey (e : Event) : List Char :=
  rfc3339Chars e.startAt ++ '_' :: rfc3339Chars e.endAt

/-- The comparison handed to `sort.Slice`: ascending by `StartAt` under
instant comparison.  `sortLe a b` is the reflexive closure used to state
sortedness: `a` need not come strictly before `b`. -/
def sortLe (a b : Event) : Bool := !(GoTime.before b.startAt a.startAt)

/-- `sort.Slice(events, func(i, j) bool)` comparing `StartAt.Before`,
modelled by a deterministic insertion sort — the Go sort is unstable and the
order of events with equal `StartAt` is unspecified, but no property proved
below depends on that order. -/
def insertSorted (e : Event) : List Event → List Event
  | [] => [e]
  | x :: xs => if sortLe e x then e :: x :: xs else x :: insertSorted e xs

def sortByStartAt (events : List Event) : List Event :=
  events.foldr insertSorted []

theorem sortLe_trans (a b c : Event) (h1 : sortLe a b = true) (h2 : sortLe b c = true) :
    sortLe a c = true := by
  simp only [sortLe, Bool.not_eq_true'] at h1 h2 ⊢
  by_contra hca
  have hca' : GoTime.before c.startAt a.startAt = true := by
    cases hval : GoTime.before c.startAt a.startAt
    · exact absurd hval hca
    · rfl
  have hbc := GoTime.eq_of_not_before h2 ?_
  · rw [hbc] at hca'
    rw [h1] at hca'
    cases hca'
  · cases hval : GoTime.before b.startAt c.startAt
    · rfl
    · have := GoTime.before_trans hval hca'
      rw [this] at h1
      cases h1

theorem sortLe_total (a b : Event) : (sortLe a b || sortLe b a) = true := by
  simp only [sortLe, Bool.or_eq_true, Bool.not_eq_true']
  by_contra h
  push_neg at h
  obtain ⟨h1, h2⟩ := h
  have h1' : GoTime.before b.startAt a.startAt = true := by
    cases hval : GoTime.before b.startAt a.startAt
    · exact absurd hval h1
    · rfl
  have h2' : GoTime.before a.startAt b.startAt = true := by
    cases hval : GoTime.before a.startAt b.startAt
    · exact absurd hval h2
    · rfl
  have := GoTime.before_trans h1' h2'
  rw [GoTime.before_irrefl] at this
  cases this

theorem perm_insertSorted (e : Event) (l : List Event) :
    (insertSorted e l).Perm (e :: l) := by
  induction l with
  | nil => exact List.Perm.refl _
  | cons x xs ih =>
    by_cases h : sortLe e x = true
    · rw [insertSorted, if_pos h]
    · rw [insertSorted, if_neg h]
      exact (ih.cons x).trans (List.Perm.swap e x xs)

theorem sorted_insertSorted (e : Event) (l : List Event)
    (hl : l.Pairwise fun a b => sortLe a b = true) :
    (insertSorted e l).Pairwise fun a b => sortLe a b = true := by
  induction l with
  | nil => simp [insertSorted]
  | cons x xs ih =>
    by_cases h : sortLe e x = true
    · rw [insertSorted, if_pos h]
      constructor
      · intro b hb
        rcases List.mem_cons.mp hb with rfl | hb
        · exact h
        · exact sortLe_trans _ _ _ h (List.rel_of_pairwise_cons hl hb)
      · exact hl
    · rw [insertSorted, if_neg h]
      have hx : sortLe x e = true := by
        have htot := sortLe_total e x
        cases hcase : sortLe e x with
        | true => exact absurd hcase h
        | false =>
          rw [hcase] at htot
          simpa using htot
      constructor
      · intro b hb
        have hmem := (perm_insertSorted e xs).mem_iff.mp hb
        rcases List.mem_cons.mp hmem with rfl | hb2
        · exact hx
        · exact List.rel_of_pairwise_cons hl hb2
      · exact ih (List.Pairwise.of_cons hl)

theorem sortByStartAt_sorted (events : List Event) :
    (sortByStartAt events).Pairwise (fun a b => sortLe a b = true) := by
  induction events with
  | nil => simp [sortByStartAt]
  | cons e evs ih => exact sorted_insertSorted e _ ih

theorem sortByStartAt_perm (events : List Event) :
    (sortByStartAt events).Perm events := by
  induction events with
  | nil => exact List.Perm.refl _
  | cons e evs ih =>
    have h1 : (insertSorted e (sortByStartAt evs)).Perm (e :: sortByStartAt evs) :=
      perm_insertSorted e _
    exact h1.trans (ih.cons e)

/-- One `eventMap[key] = event` assignment of the Go merge loop, on the
insertion-ordered association list that stands in for the unordered Go map. -/
def upsert (k : List Char) (v : Event) :
    List (List Char × Event) → List (List Char × Event)
  | [] => [(k, v)]
  | (k', v') :: rest => if k' = k then (k, v) :: rest else (k', v') :: upsert k v rest

/-- One of the two `for _, event := range ...` loops of `mergeEvents`. -/
def insertAll (m : List (List Char × Event)) (events : List Event) :
    List (List Char × Event) :=
  events.foldl (fun acc e => upsert (eventKey e) e acc) m

/-- Go `mergeEvents`: index both lists by key (later writes win), take the
map's values and sort them ascending by `StartAt`. -/
def mergeEvents (existing new : List Event) : List Event :=
  sortByStartAt ((insertAll (insertAll [] existing) new).map Prod.snd)

/-- Go `hasChanges`: true when the lengths differ or some new event's key is
missing from the set of existing keys. -/
def hasChanges (existing new : List Event) : Bool :=
  if existing.length ≠ new.length then true
  else new.any fun e => !(decide (eventKey e ∈ existing.map eventKey))

/-- Go `assignSequentialCodes`: sort ascending by `StartAt`, then overwrite
each code with the 1-based position rendered in decimal (`strconv.Itoa`). -/
def assignSequentialCodes (events : List Event) : List Event :=
  (sortByStartAt events).enum.map fun p => { p.2 with code := toString (p.1 + 1) }

/-- The key list of the association-list model of the Go map. -/
def keys (m : List (List Char × Event)) : List (List Char) := m.map Prod.fst

/-- Lookup in the association-list model of the Go map. -/
def mapLookup (k : List Char) : List (List Char × Event) → Option Event
  | [] => none
  | (k', v) :: rest => if k' = k then some v else mapLookup k rest

/-- The last event of a list carrying a given merge key — the copy that wins
the Go map's last-write-wins semantics. -/
def findLastWithKey (k : List Char) (events : List Event) : Option Event :=
  events.reverse.find? fun e => decide (eventKey e = k)

theorem keys_upsert (k : List Char) (v : Event) (m : List (List Char × Event)) :
    keys (upsert k v m) = if k ∈ keys m then keys m else keys m ++ [k] := by
  induction m with
  | nil => simp [upsert, keys]
  | cons p rest ih =>
    obtain ⟨k', v'⟩ := p
    by_cases hk : k' = k
    · subst hk
      simp [upsert, keys]
    · simp only [upsert, if_neg hk, keys, List.map_cons] at ih ⊢
      have hkk : ¬ k = k' := fun hc => hk hc.symm
      have hmem : k ∈ k' :: List.map Prod.fst rest ↔ k ∈ List.map Prod.fst rest := by
        rw [List.mem_cons]
        constructor
        · rintro (h | h)
          · exact absurd h hkk
          · exact h
        · exact Or.inr
      by_cases hin : k ∈ List.map Prod.fst rest
      · rw [if_pos (hmem.mpr hin)]
        rw [if_pos hin] at ih
        rw [ih]
      · rw [if_neg (fun hc => hin (hmem.mp hc))]
        rw [if_neg hin] at ih
        rw [ih]
        simp

theorem mem_keys_upsert (k k' : List Char) (v : Event) (m : List (List Char × Event)) :
    k' ∈ keys (upsert k v m) ↔ k' = k ∨ k' ∈ keys m := by
  rw [keys_upsert]
  by_cases hin : k ∈ keys m
  · rw [if_pos hin]
    constructor
    · exact Or.inr
    · rintro (rfl | h)
      · exact hin
      · exact h
  · rw [if_neg hin]
    simp [List.mem_append, or_comm]

theorem nodup_keys_upsert (k : List Char) (v : Event) (m : List (List Char × Event))
    (h : (keys m).Nodup) : (keys (upsert k v m)).Nodup := by
  rw [keys_upsert]
  by_cases hin : k ∈ keys m
  · rwa [if_pos hin]
  · rw [if_neg hin]
    rw [List.nodup_append]
    refine ⟨h, List.nodup_singleton k, ?_⟩
    intro a ha hb
    rw [List.mem_singleton] at hb
    subst hb
    exact hin ha

theorem mapLookup_upsert_self (k : List Char) (v : Event) (m : List (List Char × Event)) :
    mapLookup k (upsert k v m) = some v := by
  induction m with
  | nil => simp [upsert, mapLookup]
  | cons p rest ih =>
    obtain ⟨k', v'⟩ := p
    by_cases hk : k' = k
    · subst hk
      simp [upsert, mapLookup]
    · simp [upsert, if_neg hk, mapLookup, hk, ih]

theorem mapLookup_upsert_ne (k k' : List Char) (v : Event) (m : List (List Char × Event))
    (h : k' ≠ k) : mapLookup k' (upsert k v m) = mapLookup k' m := by
  have hkk : ¬ k = k' := fun hc => h hc.symm
  induction m with
  | nil => simp [upsert, mapLookup, hkk]
  | cons p rest ih =>
    obtain ⟨k'', v''⟩ := p
    by_cases hk : k'' = k
    · subst hk
      simp [upsert, mapLookup, hkk]
    · simp only [upsert, if_neg hk, mapLookup]
      by_cases hk2 : k'' = k'
      · simp [hk2]
      · simp [hk2, ih]

theorem mem_upsert {p : List Char × Event} {k : List Char} {v : Event} :
    ∀ {m : List (List Char × Event)}, p ∈ upsert k v m → p = (k, v) ∨ p ∈ m := by
  intro m
  induction m with
  | nil =>
    intro h
    simpa [upsert] using h
  | cons q rest ih =>
    intro h
    obtain ⟨k', v'⟩ := q
    by_cases hk : k' = k
    · subst hk
      simp only [upsert] at h
      rw [if_pos trivial] at h
      rw [List.mem_cons] at h
      rcases h with h | h
      · exact Or.inl h
      · exact Or.inr (List.mem_cons_of_mem _ h)
    · simp only [upsert, if_neg hk] at h
      rw [List.mem_cons] at h
      rcases h with h | h
      · exact Or.inr (List.mem_cons.mpr (Or.inl h))
      · rcases ih h with h2 | h2
        · exact Or.inl h2
        · exact Or.inr (List.mem_cons_of_mem _ h2)

theorem insertAll_cons (m : List (List Char × Event)) (e : Event) (evs : List Event) :
    insertAll m (e :: evs) = insertAll (upsert (eventKey e) e m) evs := rfl

theorem insertAll_append (m : List (List Char × Event)) (evs1 evs2 : List Event) :
    insertAll (insertAll m evs1) evs2 = insertAll m (evs1 ++ evs2) :=
  (List.foldl_append _ _ evs1 evs2).symm

theorem mem_keys_insertAll (evs : List Event) :
    ∀ (m : List (List Char × Event)) (k : List Char),
      k ∈ keys (insertAll m evs) ↔ k ∈ keys m ∨ k ∈ evs.map eventKey := by
  induction evs with
  | nil => intro m k; simp [insertAll]
  | cons e evs ih =>
    intro m k
    rw [insertAll_cons, ih, mem_keys_upsert]
    simp only [List.map_cons, List.mem_cons]
    tauto

theorem nodup_keys_insertAll (evs : List Event) :
    ∀ (m : List (List Char × Event)), (keys m).Nodup → (keys (insertAll m evs)).Nodup := by
  induction evs with
  | nil => intro m h; exact h
  | cons e evs ih =>
    intro m h
    rw [insertAll_cons]
    exact ih _ (nodup_keys_upsert _ _ _ h)

theorem mapLookup_insertAll (evs : List Event) :
    ∀ (m : List (List Char × Event)) (k : List Char),
      mapLookup k (insertAll m evs) =
        match findLastWithKey k evs with
        | some e => some e
        | none => mapLookup k m := by
  induction evs with
  | nil => intro m k; simp [insertAll, findLastWithKey]
  | cons e evs ih =>
    intro m k
    rw [insertAll_cons, ih]
    have hsplit : findLastWithKey k (e :: evs)
        = (findLastWithKey k evs).or ((if eventKey e = k then some e else none)) := by
      simp only [findLastWithKey, List.reverse_cons, List.find?_append]
      congr 1
      simp [List.find?]
      by_cases hk : eventKey e = k
      · simp [hk]
      · simp [hk]
    rw [hsplit]
    cases hlast : findLastWithKey k evs with
    | some x => simp [Option.or]
    | none =>
      simp only [Option.or]
      by_cases hk : eventKey e = k
      · subst hk
        simp [mapLookup_upsert_self]
      · have hne : k ≠ eventKey e := fun hc => hk hc.symm
        simp [hk, mapLookup_upsert_ne _ _ _ _ hne]

theorem entry_key_insertAll (evs : List Event) :
    ∀ (m : List (List Char × Event)), (∀ p ∈ m, p.1 = eventKey p.2) →
      ∀ p ∈ insertAll m evs, p.1 = eventKey p.2 := by
  induction evs with
  | nil => intro m hm; exact hm
  | cons e evs ih =>
    intro m hm
    rw [insertAll_cons]
    apply ih
    intro p hp
    rcases mem_upsert hp with h | h
    · rw [h]
    · exact hm p h

theorem mapLookup_eq_some_of_mem :
    ∀ {m : List (List Char × Event)}, (keys m).Nodup →
      ∀ {p : List Char × Event}, p ∈ m → mapLookup p.1 m = some p.2 := by
  intro m
  induction m with
  | nil =>
    intro _ p hp
    cases hp
  | cons q rest ih =>
    intro h p hp
    obtain ⟨k', v'⟩ := q
    simp only [keys, List.map_cons, List.nodup_cons] at h
    rcases List.mem_cons.mp hp with hq | hq
    · rw [hq]
      simp [mapLookup]
    · have hne : k' ≠ p.1 := by
        intro hc
        exact h.1 (hc ▸ (List.mem_map.mpr ⟨p, hq, rfl⟩))
      simp only [mapLookup, if_neg hne]
      exact ih h.2 hq

theorem mapLookup_eq_none_iff {m : List (List Char × Event)} {k : List Char} :
    mapLookup k m = none ↔ k ∉ keys m := by
  induction m with
  | nil => simp [mapLookup, keys]
  | cons q rest ih =>
    obtain ⟨k', v'⟩ := q
    by_cases hk : k' = k
    · subst hk
      simp [mapLookup, keys]
    · have hkk : ¬ k = k' := fun hc => hk hc.symm
      simp [mapLookup, hk, ih, keys, hkk]

theorem mergeEvents_eq (existing new : List Event) :
    mergeEvents existing new
      = sortByStartAt ((insertAll [] (existing ++ new)).map Prod.snd) := by
  rw [mergeEvents, insertAll_append]

theorem entry_key_insertAll_nil (evs : List Event) :
    ∀ p ∈ insertAll [] evs, p.1 = eventKey p.2 := by
  apply entry_key_insertAll
  intro p hp
  cases hp

theorem nodup_keys_insertAll_nil (evs : List Event) :
    (keys (insertAll [] evs)).Nodup := by
  apply nodup_keys_insertAll
  simp [keys]

theorem mergeEvents_keys_perm (existing new : List Event) :
    ((mergeEvents existing new).map eventKey).Perm
      (keys (insertAll [] (existing ++ new))) := by
  rw [mergeEvents_eq]
  have hperm := (sortByStartAt_perm ((insertAll [] (existing ++ new)).map Prod.snd)).map eventKey
  have hkeys : ((insertAll [] (existing ++ new)).map Prod.snd).map eventKey
      = keys (insertAll [] (existing ++ new)) := by
    rw [List.map_map]
    exact List.map_congr_left fun p hp => (entry_key_insertAll_nil _ p hp).symm
  rwa [hkeys] at hperm

theorem mergeEvents_keys_nodup (existing new : List Event) :
    ((mergeEvents existing new).map eventKey).Nodup :=
  (mergeEvents_keys_perm existing new).nodup_iff.mpr (nodup_keys_insertAll_nil _)

theorem mem_map_eventKey_mergeEvents (existing new : List Event) (k : List Char) :
    k ∈ (mergeEvents existing new).map eventKey ↔ k ∈ (existing ++ new).map eventKey := by
  rw [(mergeEvents_keys_perm existing new).mem_iff, mem_keys_insertAll]
  simp [keys]

/-- Last-write-wins: every event in the merged output is the last occurrence
of its key in `existing ++ new` — so a key in `new` overrides `existing`, and
within one list the later occurrence overrides the earlier. -/
theorem mergeEvents_value (existing new : List Event) {ev : Event}
    (hev : ev ∈ mergeEvents existing new) :
    findLastWithKey (eventKey ev) (existing ++ new) = some ev := by
  rw [mergeEvents_eq] at hev
  have hmem : ev ∈ (insertAll [] (existing ++ new)).map Prod.snd :=
    (sortByStartAt_perm _).subset hev
  obtain ⟨p, hp, hp2⟩ := List.mem_map.mp hmem
  have hkey : p.1 = eventKey p.2 := entry_key_insertAll_nil _ p hp
  have hlook := mapLookup_eq_some_of_mem (nodup_keys_insertAll_nil (existing ++ new)) hp
  rw [mapLookup_insertAll] at hlook
  rw [← hp2, ← hkey]
  cases hlast : findLastWithKey p.1 (existing ++ new) with
  | some x =>
    rw [hlast] at hlook
    simpa using hlook
  | none =>
    rw [hlast] at hlook
    simp [mapLookup] at hlook

theorem mergeEvents_complete (existing new : List Event) (k : List Char)
    (hk : k ∈ (existing ++ new).map eventKey) :
    ∃ ev ∈ mergeEvents existing new, eventKey ev = k := by
  have hmem := (mem_map_eventKey_mergeEvents existing new k).mpr hk
  obtain ⟨ev, hev, hevk⟩ := List.mem_map.mp hmem
  exact ⟨ev, hev, hevk⟩

theorem mergeEvents_sorted (existing new : List Event) :
    (mergeEvents existing new).Pairwise (fun a b => sortLe a b = true) := by
  rw [mergeEvents_eq]
  exact sortByStartAt_sorted _

theorem length_le_mergeEvents (existing new : List Event)
    (hnd : (existing.map eventKey).Nodup) :
    existing.length ≤ (mergeEvents existing new).length := by
  have hsub : existing.map eventKey ⊆ (mergeEvents existing new).map eventKey := by
    intro k hk
    apply (mem_map_eventKey_mergeEvents existing new k).mpr
    rw [List.map_append]
    exact List.mem_append_left _ hk
  have h1 : (existing.map eventKey).toFinset.card = (existing.map eventKey).length :=
    List.toFinset_card_of_nodup hnd
  have h2 : (existing.map eventKey).toFinset ⊆ ((mergeEvents existing new).map eventKey).toFinset := by
    intro x hx
    rw [List.mem_toFinset] at hx ⊢
    exact hsub hx
  have h3 := Finset.card_le_card h2
  have h4 := List.toFinset_card_le ((mergeEvents existing new).map eventKey)
  have h5 : (existing.map eventKey).length = existing.length := List.length_map _ _
  have h6 : ((mergeEvents existing new).map eventKey).length
      = (mergeEvents existing new).length := List.length_map _ _
  omega

theorem mergeEvents_self_length (d : List Event) (hnd : (d.map eventKey).Nodup) :
    (mergeEvents d d).length = d.length := by
  have hn2 := mergeEvents_keys_nodup d d
  have hmem : ∀ k, k ∈ (mergeEvents d d).map eventKey ↔ k ∈ d.map eventKey := by
    intro k
    rw [mem_map_eventKey_mergeEvents]
    simp
  have hperm : ((mergeEvents d d).map eventKey).Perm (d.map eventKey) :=
    (List.perm_ext_iff_of_nodup hn2 hnd).mpr hmem
  have := hperm.length_eq
  rw [List.length_map, List.length_map] at this
  exact this

theorem hasChanges_eq_false_iff (existing merged : List Event) :
    hasChanges existing merged = false ↔
      existing.length = merged.length ∧
        ∀ ev ∈ merged, eventKey ev ∈ existing.map eventKey := by
  rw [hasChanges]
  rcases eq_or_ne existing.length merged.length with he | he
  · rw [if_neg (by omega)]
    simp only [List.any_eq_false, Bool.not_eq_true', decide_eq_false_iff_not, not_not]
    constructor
    · intro h
      exact ⟨he, h⟩
    · intro h
      exact h.2
  · rw [if_pos he]
    simp only [Bool.true_eq_false, false_iff, not_and]
    intro hc
    exact absurd hc he

theorem pairwise_enum_of_pairwise {R : Event → Event → Prop} {l : List Event}
    (h : l.Pairwise R) : l.enum.Pairwise fun p q => R p.2 q.2 := by
  rw [← List.enum_map_snd l] at h
  exact List.pairwise_map.mp h

theorem assignSequentialCodes_length (events : List Event) :
    (assignSequentialCodes events).length = events.length := by
  rw [assignSequentialCodes, List.length_map, List.enum_length,
    (sortByStartAt_perm events).length_eq]

theorem assignSequentialCodes_codes (events : List Event) :
    (assignSequentialCodes events).map Event.code
      = (List.range events.length).map fun i => toString (i + 1) := by
  rw [assignSequentialCodes, List.map_map]
  rw [show ((fun e => Event.code e) ∘ fun p : Nat × Event =>
      { p.2 with code := toString (p.1 + 1) })
    = (fun i => toString (i + 1)) ∘ Prod.fst from rfl]
  rw [← List.map_map, List.enum_map_fst, (sortByStartAt_perm events).length_eq]

theorem assignSequentialCodes_sorted (events : List Event) :
    (assignSequentialCodes events).Pairwise fun a b => sortLe a b = true := by
  rw [assignSequentialCodes]
  rw [List.pairwise_map]
  have h := pairwise_enum_of_pairwise (sortByStartAt_sorted events)
  exact h.imp fun hab => hab

/-- Erase the display code — the only field `assignSequentialCodes`
overwrites. -/
def stripCode (e : Event) : Event := { e with code := "" }

theorem assignSequentialCodes_perm_stripCode (events : List Event) :
    ((assignSequentialCodes events).map stripCode).Perm (events.map stripCode) := by
  rw [assignSequentialCodes, List.map_map]
  rw [show (stripCode ∘ fun p : Nat × Event => { p.2 with code := toString (p.1 + 1) })
    = stripCode ∘ Prod.snd from rfl]
  rw [← List.map_map, List.enum_map_snd]
  exact (sortByStartAt_perm events).map stripCode

/-- The published JSON element (Go struct `OutputEvent`): `start`, `end`,
`code` and the optional `is_test` (a `*bool` with `omitempty`, so the member
is omitted exactly when the pointer is nil). -/
structure OutputEvent where
  start : String
  «end» : String
  code : String
  isTest : Option Bool
deriving DecidableEq, Repr

/-- The published JSON document (Go struct `OutputData`): one `data` array. -/
structure OutputData where
  data : List OutputEvent
deriving DecidableEq, Repr

/-- `t.Format("2006-01-02T15:04:05.000Z")` as a Lean string. -/
def formatMilliStr (t : GoTime) : String := ⟨formatMilliChars t⟩

/-- The element written for one event: both timestamps rendered with the
millisecond layout, `code` and `isTest` carried through unchanged. -/
def outputEventFor (e : Event) : OutputEvent :=
  ⟨formatMilliStr e.startAt, formatMilliStr e.endAt, e.code, e.isTest⟩

/-- Go `convertToOutputFormat`. -/
def convertToOutputFormat (events : List Event) : OutputData :=
  ⟨events.map outputEventFor⟩

/-- State of the output file as seen by `loadExistingEvents`.  `stored d`
means the file holds `json.MarshalIndent` of `d`; since `encoding/json`
decodes its own encoding of these structs back to the same value, the file is
modelled at decoded granularity.  `corrupt` is a present file whose contents
do not decode as `OutputData`. -/
inductive FileState where
  | absent
  | corrupt
  | stored (d : OutputData)
deriving DecidableEq, Repr

inductive LoadError where
  | notExist
  | decodeFailed
  | badTimestamp
deriving DecidableEq, Repr

/-- The conversion loop of Go `loadExistingEvents`: parse both timestamps of
each element with the millisecond layout, failing the whole load on the first
element that does not parse; only `code`, `startAt`, `endAt`, `isTest` are
populated (the remaining fields keep their zero values). -/
def eventsFromOutput : List OutputEvent → Except LoadError (List Event)
  | [] => .ok []
  | oe :: rest =>
    match parseMilliChars oe.start.data with
    | none => .error .badTimestamp
    | some st =>
      match parseMilliChars oe.«end».data with
      | none => .error .badTimestamp
      | some en =>
        match eventsFromOutput rest with
        | .error er => .error er
        | .ok evs => .ok ({ code := oe.code, startAt := st, endAt := en, isTest := oe.isTest } :: evs)

/-- Go `loadExistingEvents`: read the file (missing → `os.IsNotExist` error),
decode it as `OutputData` (failure → decode error), then convert. -/
def loadExistingEvents : FileState → Except LoadError (List Event)
  | .absent => .error .notExist
  | .corrupt => .error .decodeFailed
  | .stored d => eventsFromOutput d.data

/-- Go `saveEvents`: overwrite the output file with the marshalled
`convertToOutputFormat` of the events. -/
def saveEvents (events : List Event) : FileState :=
  FileState.stored (convertToOutputFormat events)

/-- One character of `encoding/json` string escaping (with the default HTML
escaping of `<`, `>`, `&` and the U+2028/U+2029 escapes). -/
def escapeJsonChar (c : Char) : List Char :=
  if c = '"' then ['\\', '"']
  else if c = '\\' then ['\\', '\\']
  else if c = '\n' then ['\\', 'n']
  else if c = '\r' then ['\\', 'r']
  else if c = '\t' then ['\\', 't']
  else if c.toNat < 32 then ['\\', 'u', '0', '0', Nat.digitChar (c.toNat / 16), Nat.digitChar (c.toNat % 16)]
  else if c = '<' then ['\\', 'u', '0', '0', '3', 'c']
  else if c = '>' then ['\\', 'u', '0', '0', '3', 'e']
  else if c = '&' then ['\\', 'u', '0', '0', '2', '6']
  else if c.toNat = 8232 then ['\\', 'u', '2', '0', '2', '8']
  else if c.toNat = 8233 then ['\\', 'u', '2', '0', '2', '9']
  else [c]

/-- A JSON string literal as written by `encoding/json`. -/
def renderJsonString (s : String) : List Char :=
  '"' :: (s.data.map escapeJsonChar).flatten ++ ['"']

def renderBool : Bool → List Char
  | true => ['t', 'r', 'u', 'e']
  | false => ['f', 'a', 'l', 's', 'e']

/-- One member line of an element object, at the 6-space depth used by
`json.MarshalIndent(v, "", "  ")` for the third nesting level. -/
def memberLine (name : String) (value : List Char) : List Char :=
  [' ', ' ', ' ', ' ', ' ', ' '] ++ renderJsonString name ++ ':' :: ' ' :: value

/-- The members (name, rendered value) of one element object, in the Go
struct's field order: `start`, `end`, `code`, and `is_test` only when the
`isTest` pointer is non-nil (`omitempty` on a `*bool` checks the pointer,
not the pointed-at value). -/
def outputEventMembers (oe : OutputEvent) : List (String × List Char) :=
  [(("start"), renderJsonString oe.start),
    (("end"), renderJsonString oe.«end»),
    (("code"), renderJsonString oe.code)] ++
  (match oe.isTest with
    | none => []
    | some b => [(("is_test"), renderBool b)])

/-- One element of the `data` array exactly as `json.MarshalIndent` writes
it. -/
def renderOutputEventChars (oe : OutputEvent) : List Char :=
  [' ', ' ', ' ', ' ', '\x7b', '\n'] ++
    List.intercalate [',', '\n'] ((outputEventMembers oe).map fun m => memberLine m.1 m.2) ++
    ['\n', ' ', ' ', ' ', ' ', '\x7d']

/-- `json.MarshalIndent(outputData, "", "  ")`: a single object with one
`data` array member. -/
def renderOutputDataChars (d : OutputData) : List Char :=
  match d.data with
  | [] =>
    ['\x7b', '\n', ' ', ' '] ++ renderJsonString ("data") ++
      [':', ' ', '[', ']', '\n', '\x7d']
  | _ :: _ =>
    ['\x7b', '\n', ' ', ' '] ++ renderJsonString ("data") ++ [':', ' ', '[', '\n'] ++
      List.intercalate [',', '\n'] (d.data.map renderOutputEventChars) ++
      ['\n', ' ', ' ', ']', '\n', '\x7d']

/-- The exact bytes `saveEvents` writes for a given event list. -/
def savedBytes (events : List Event) : List Char :=
  renderOutputDataChars (convertToOutputFormat events)

/-- State of the Secondary source's cache file `david_events.json`:
missing, present-but-undecodable, or a decoded snapshot. -/
inductive CacheFile where
  | absent
  | corrupt
  | snapshot (events : List Event)
deriving DecidableEq, Repr

/-- Go `getCachedEventsFromDir`: an unreadable or undecodable cache file
yields the empty list, and the returned `error` is nil in every case. -/
def getCachedEventsFromDir : CacheFile → List Event × Option LoadError
  | .absent => ([], none)
  | .corrupt => ([], none)
  | .snapshot evs => (evs, none)

/-- What the Secondary fetch's single HTTP exchange produced.  `okResponse
none` is a 200 whose body does not decode as `OutputData`. -/
inductive HttpResult where
  | transportError
  | notModified
  | okResponse (payload : Option OutputData)
  | status (code : Nat)
deriving DecidableEq, Repr

inductive FetchError where
  | transport
  | badStatus (code : Nat)
  | decodeFailed
deriving DecidableEq, Repr

/-- The conversion loop of `fetchDavidKendallData`: elements whose
timestamps do not parse are skipped individually. -/
def eventsFromOutputSkipping (l : List OutputEvent) : List Event :=
  l.filterMap fun oe =>
    match parseMilliChars oe.start.data, parseMilliChars oe.«end».data with
    | some st, some en => some { code := oe.code, startAt := st, endAt := en, isTest := oe.isTest }
    | _, _ => none

/-- Go `fetchDavidKendallData`, given the cache state and the outcome of the
conditional GET.  A 304 answers from the cache; a 200 decodes and converts
the payload; anything else is a recoverable error.  (The ETag/event cache
writes on the 200 path are side effects not needed by any claim.) -/
def fetchDavidKendallData (cache : CacheFile) : HttpResult → Except FetchError (List Event)
  | .transportError => .error .transport
  | .notModified => .ok (getCachedEventsFromDir cache).1
  | .okResponse none => .error .decodeFailed
  | .okResponse (some d) => .ok (eventsFromOutputSkipping d.data)
  | .status c => .error (.badStatus c)

/-- The existing-events list `fetchAndUpdateEvents` proceeds with: a missing
file degrades to the empty dataset, any other load failure is fatal
(`none`). -/
def loadedOrEmpty (fs : FileState) : Option (List Event) :=
  match loadExistingEvents fs with
  | .error .notExist => some []
  | .error _ => none
  | .ok evs => some evs

/-- A fetch result: `none` models a failed source (its events degrade to the
empty list), `some evs` a successful fetch. -/
def sourceOrEmpty : Option (List Event) → List Event
  | none => []
  | some evs => evs

/-- The merge phase of `fetchAndUpdateEvents`: start from the existing
events, merge the Secondary (external) events if any arrived, then the
Primary (Octopus) events if any arrived. -/
def mergedDataset (existing : List Event) (octopus external : Option (List Event)) :
    List Event :=
  let externalEvents := sourceOrEmpty external
  let octopusEvents := sourceOrEmpty octopus
  let allEvents := existing
  let allEvents := if externalEvents.length > 0 then mergeEvents allEvents externalEvents else allEvents
  if octopusEvents.length > 0 then mergeEvents allEvents octopusEvents else allEvents

/-- The result of one reconciliation run. -/
inductive RunOutcome where
  | fatalLoad
  | noChange
  | safetyError (existingCount finalCount : Nat)
  | written (finalEvents : List Event)
deriving DecidableEq, Repr

/-- Go `fetchAndUpdateEvents` (the reconciler): load (missing file → empty),
substitute the empty list for a failed source, merge, skip the write when
`hasChanges` sees none, assign sequential codes, refuse to shrink, then
write. -/
def fetchAndUpdateEvents (fs : FileState) (octopus external : Option (List Event)) :
    RunOutcome :=
  match loadedOrEmpty fs with
  | none => .fatalLoad
  | some existingEvents =>
    let allEvents := mergedDataset existingEvents octopus external
    if !(hasChanges existingEvents allEvents) then .noChange
    else
      let finalEvents := assignSequentialCodes allEvents
      if finalEvents.length < existingEvents.length then
        .safetyError existingEvents.length finalEvents.length
      else .written finalEvents

/-- The output file after a run: only the `written` outcome touches it. -/
def fileAfter (fs : FileState) : RunOutcome → FileState
  | .written evs => saveEvents evs
  | _ => fs

def RunOutcome.isSuccess : RunOutcome → Bool
  | .noChange => true
  | .written _ => true
  | _ => false

/-- Number of events recorded in the persisted file. -/
def datasetSize : FileState → Nat
  | .stored d => d.data.length
  | _ => 0

theorem eventsFromOutput_length :
    ∀ {l : List OutputEvent} {evs : List Event},
      eventsFromOutput l = .ok evs → evs.length = l.length := by
  intro l
  induction l with
  | nil =>
    intro evs h
    simp only [eventsFromOutput] at h
    cases h
    rfl
  | cons oe rest ih =>
    intro evs h
    simp only [eventsFromOutput] at h
    cases hst : parseMilliChars oe.start.data with
    | none => rw [hst] at h; cases h
    | some st =>
      rw [hst] at h
      cases hen : parseMilliChars oe.«end».data with
      | none => rw [hen] at h; cases h
      | some en =>
        rw [hen] at h
        cases hrest : eventsFromOutput rest with
        | error er => rw [hrest] at h; cases h
        | ok evs2 =>
          rw [hrest] at h
          cases h
          simp [ih hrest]

theorem eventsFromOutput_ne_notExist :
    ∀ (l : List OutputEvent), eventsFromOutput l ≠ .error .notExist := by
  intro l
  induction l with
  | nil =>
    intro h
    simp [eventsFromOutput] at h
  | cons oe rest ih =>
    intro h
    simp only [eventsFromOutput] at h
    cases hst : parseMilliChars oe.start.data with
    | none => rw [hst] at h; cases h
    | some st =>
      rw [hst] at h
      cases hen : parseMilliChars oe.«end».data with
      | none => rw [hen] at h; cases h
      | some en =>
        rw [hen] at h
        cases hrest : eventsFromOutput rest with
        | error er =>
          rw [hrest] at h
          cases h
          exact ih hrest
        | ok evs2 => rw [hrest] at h; cases h

theorem datasetSize_le_of_loaded {fs : FileState} {existing : List Event}
    (h : loadedOrEmpty fs = some existing) : datasetSize fs ≤ existing.length := by
  cases fs with
  | absent => simp [datasetSize]
  | corrupt => simp [loadedOrEmpty, loadExistingEvents] at h
  | stored d =>
    simp only [loadedOrEmpty, loadExistingEvents] at h
    cases he : eventsFromOutput d.data with
    | error er =>
      rw [he] at h
      cases er with
      | notExist => exact absurd he (eventsFromOutput_ne_notExist d.data)
      | decodeFailed => simp at h
      | badTimestamp => simp at h
    | ok evs =>
      rw [he] at h
      simp only [Option.some.injEq] at h
      subst h
      rw [datasetSize, eventsFromOutput_length he]

theorem datasetSize_saveEvents (events : List Event) :
    datasetSize (saveEvents events) = events.length := by
  simp [saveEvents, datasetSize, convertToOutputFormat]

theorem merge_step_bound (base l : List Event) (hnd : (base.map eventKey).Nodup) :
    base.length ≤ (if l.length > 0 then mergeEvents base l else base).length
    ∧ ((if l.length > 0 then mergeEvents base l else base).map eventKey).Nodup := by
  by_cases h : l.length > 0
  · rw [if_pos h]
    exact ⟨length_le_mergeEvents base l hnd, mergeEvents_keys_nodup base l⟩
  · rw [if_neg h]
    exact ⟨le_refl _, hnd⟩

theorem length_le_mergedDataset (existing : List Event) (octopus external : Option (List Event))
    (hnd : (existing.map eventKey).Nodup) :
    existing.length ≤ (mergedDataset existing octopus external).length := by
  simp only [mergedDataset]
  have h1 := merge_step_bound existing (sourceOrEmpty external) hnd
  have h2 := merge_step_bound
    (if (sourceOrEmpty external).length > 0 then mergeEvents existing (sourceOrEmpty external) else existing)
    (sourceOrEmpty octopus) h1.2
  exact le_trans h1.1 h2.1

theorem fetchAndUpdateEvents_eq_of_loaded {fs : FileState} {existing : List Event}
    (h : loadedOrEmpty fs = some existing) (octopus external : Option (List Event)) :
    fetchAndUpdateEvents fs octopus external =
      (if !(hasChanges existing (mergedDataset existing octopus external)) then .noChange
       else if (assignSequentialCodes (mergedDataset existing octopus external)).length < existing.length then
         .safetyError existing.length (assignSequentialCodes (mergedDataset existing octopus external)).length
       else .written (assignSequentialCodes (mergedDataset existing octopus external))) := by
  simp only [fetchAndUpdateEvents, h]

def t10 : GoTime := ⟨2024, 1, 1, 10, 0, 0, 0⟩

def t11 : GoTime := ⟨2024, 1, 1, 11, 0, 0, 0⟩

def t12 : GoTime := ⟨2024, 1, 1, 12, 0, 0, 0⟩

/-- Same second as `t12`, but 500 milliseconds later. -/
def t12half : GoTime := ⟨2024, 1, 1, 12, 0, 0, 500⟩

def t13 : GoTime := ⟨2024, 1, 1, 13, 0, 0, 0⟩

def t14 : GoTime := ⟨2024, 1, 1, 14, 0, 0, 0⟩

def t15 : GoTime := ⟨2024, 1, 1, 15, 0, 0, 0⟩

def evMorning : Event := { code := "0", startAt := t10, endAt := t11 }

def evNoon : Event := { code := "1", startAt := t12, endAt := t13 }

/-- Same merge key as `evNoon` but different field values. -/
def evNoonAlt : Event := { code := "X", startAt := t12, endAt := t13, isTest := some true }

/-- Distinct `(startAt, endAt)` pair from `evNoon` — they differ by 500 ms —
yet the same RFC3339 merge key. -/
def evNoonHalf : Event := { code := "b", startAt := t12half, endAt := t13 }

def evAfternoon : Event := { code := "c", startAt := t14, endAt := t15 }

def evTestFalse : Event := { code := "1", startAt := t12, endAt := t13, isTest := some false }

def tYear10000 : GoTime := ⟨10000, 1, 1, 0, 0, 0, 0⟩

/-- A genuine whole-millisecond UTC instant whose year needs five digits. -/
def evYear10000 : Event := { code := "1", startAt := tYear10000, endAt := tYear10000 }

/-- C2 counterexample: the merge key is the RFC3339 pair, which drops
sub-second precision, not the full `(startAt, endAt)` pair.  `evNoon` and
`evNoonHalf` have distinct `(startAt, endAt)` pairs, yet merging them yields
a single event: the key of `evNoon`, though present in the input, appears in
no result event — so the union-by-(startAt, endAt)-pair characterization is
false. -/
theorem c2_counterexample :
    (evNoon.startAt, evNoon.endAt) ≠ (evNoonHalf.startAt, evNoonHalf.endAt)
    ∧ mergeEvents [evNoon] [evNoonHalf] = [evNoonHalf]
    ∧ ∀ e ∈ mergeEvents [evNoon] [evNoonHalf],
        (e.startAt, e.endAt) ≠ (evNoon.startAt, evNoon.endAt) :=
  ⟨by decide, by decide, by decide⟩

/-- C2 (amended to second granularity): `mergeEvents existing new` is exactly
the union of the two lists keyed by the RFC3339 merge key: the result's keys
are duplicate-free, a key occurs in the result exactly when it occurs in
either input, every result event is the last occurrence of its key in
`existing ++ new` (so `new` beats `existing`, and within one input the later
occurrence wins), and the result is sorted ascending by `startAt`. -/
theorem c2_merge_union_by_key (existing new : List Event) :
    ((mergeEvents existing new).map eventKey).Nodup
    ∧ (∀ k, k ∈ (mergeEvents existing new).map eventKey ↔ k ∈ (existing ++ new).map eventKey)
    ∧ (∀ ev ∈ mergeEvents existing new,
        findLastWithKey (eventKey ev) (existing ++ new) = some ev)
    ∧ (mergeEvents existing new).Pairwise (fun a b => sortLe a b = true) :=
  ⟨mergeEvents_keys_nodup existing new,
    fun k => mem_map_eventKey_mergeEvents existing new k,
    fun _ hev => mergeEvents_value existing new hev,
    mergeEvents_sorted existing new⟩

theorem c2_witness :
    ((mergeEvents [evNoon] [evNoonAlt, evAfternoon]).map eventKey).Nodup
    ∧ (∀ k, k ∈ (mergeEvents [evNoon] [evNoonAlt, evAfternoon]).map eventKey
        ↔ k ∈ ([evNoon] ++ [evNoonAlt, evAfternoon]).map eventKey)
    ∧ (∀ ev ∈ mergeEvents [evNoon] [evNoonAlt, evAfternoon],
        findLastWithKey (eventKey ev) ([evNoon] ++ [evNoonAlt, evAfternoon]) = some ev)
    ∧ (mergeEvents [evNoon] [evNoonAlt, evAfternoon]).Pairwise
        (fun a b => sortLe a b = true) :=
  c2_merge_union_by_key [evNoon] [evNoonAlt, evAfternoon]

/-- C4: `assignSequentialCodes` returns the input sorted ascending by
`startAt`, of the same length, with the codes overwritten positionally by
`"1", "2", …, "n"` — independent of whatever codes the events carried
(stripping the code field, the output is a permutation of the input). -/
theorem c4_assign_sequential_codes (events : List Event) :
    (assignSequentialCodes events).length = events.length
    ∧ (assignSequentialCodes events).map Event.code
        = (List.range events.length).map (fun i => toString (i + 1))
    ∧ (assignSequentialCodes events).Pairwise (fun a b => sortLe a b = true)
    ∧ ((assignSequentialCodes events).map stripCode).Perm (events.map stripCode) :=
  ⟨assignSequentialCodes_length events, assignSequentialCodes_codes events,
    assignSequentialCodes_sorted events, assignSequentialCodes_perm_stripCode events⟩

/-- C5 counterexample: for a dataset that itself contains two events with
the same merge key, merging it with itself shrinks it, and `hasChanges`
reports a change — the claim's universal quantification over every dataset
is false. -/
theorem c5_counterexample :
    mergeEvents [evNoon, evNoon] [evNoon, evNoon] = [evNoon]
    ∧ (mergeEvents [evNoon, evNoon] [evNoon, evNoon]).length
        ≠ ([evNoon, evNoon] : List Event).length
    ∧ hasChanges [evNoon, evNoon] (mergeEvents [evNoon, evNoon] [evNoon, evNoon]) = true :=
  ⟨by decide, by decide, by decide⟩

/-- C5 (amended to datasets with pairwise-distinct merge keys): merging such
a dataset with itself preserves its size and key-set, and `hasChanges`
reports no change, so the no-write path triggers. -/
theorem c5_merge_self_idempotent (d : List Event) (hnd : (d.map eventKey).Nodup) :
    (mergeEvents d d).length = d.length
    ∧ (∀ k, k ∈ (mergeEvents d d).map eventKey ↔ k ∈ d.map eventKey)
    ∧ hasChanges d (mergeEvents d d) = false := by
  refine ⟨mergeEvents_self_length d hnd, ?_, ?_⟩
  · intro k
    rw [mem_map_eventKey_mergeEvents]
    simp
  · apply (hasChanges_eq_false_iff _ _).mpr
    refine ⟨(mergeEvents_self_length d hnd).symm, ?_⟩
    intro ev hev
    have h1 : eventKey ev ∈ (mergeEvents d d).map eventKey :=
      List.mem_map.mpr ⟨ev, hev, rfl⟩
    have h2 := (mem_map_eventKey_mergeEvents d d _).mp h1
    simpa using h2

theorem c5_witness :
    ([evNoon, evAfternoon].map eventKey).Nodup
    ∧ ((mergeEvents [evNoon, evAfternoon] [evNoon, evAfternoon]).length
          = ([evNoon, evAfternoon] : List Event).length
      ∧ (∀ k, k ∈ (mergeEvents [evNoon, evAfternoon] [evNoon, evAfternoon]).map eventKey
            ↔ k ∈ [evNoon, evAfternoon].map eventKey)
      ∧ hasChanges [evNoon, evAfternoon] (mergeEvents [evNoon, evAfternoon] [evNoon, evAfternoon])
          = false) :=
  ⟨by decide, c5_merge_self_idempotent [evNoon, evAfternoon] (by decide)⟩

/-- C6: a failed source is indistinguishable from a source that returned
zero events — the run computes exactly the same outcome, so a single
source's failure by itself neither aborts the run nor alters the dataset
beyond what the surviving source justifies.  The last conjunct is the spec's
example: Primary fails, Secondary returns two events, the existing dataset
holds one unrelated event — the run succeeds and writes all three. -/
theorem c6_source_failure_isolation (fs : FileState) :
    (∀ external : List Event,
        fetchAndUpdateEvents fs none (some external)
          = fetchAndUpdateEvents fs (some []) (some external))
    ∧ (∀ octopus : List Event,
        fetchAndUpdateEvents fs (some octopus) none
          = fetchAndUpdateEvents fs (some octopus) (some []))
    ∧ fetchAndUpdateEvents fs none none = fetchAndUpdateEvents fs (some []) (some [])
    ∧ fetchAndUpdateEvents (saveEvents [evNoon]) none (some [evMorning, evAfternoon])
        = .written [{ evMorning with code := "1" }, { evNoon with code := "2" },
            { evAfternoon with code := "3" }] :=
  ⟨fun _ => rfl, fun _ => rfl, rfl, by decide⟩

/-- C7: when the Secondary source answers HTTP 304, `fetchDavidKendallData`
returns the cached snapshot as a success; `getCachedEvents` returns a nil
error for every cache state, with the stored events when the cache decodes
and the empty list when the cache file is absent or undecodable. -/
theorem c7_http304_serves_cache (cache : CacheFile) :
    (getCachedEventsFromDir cache).2 = none
    ∧ fetchDavidKendallData cache .notModified = .ok (getCachedEventsFromDir cache).1
    ∧ (getCachedEventsFromDir cache).1
        = (match cache with | .snapshot evs => evs | _ => []) := by
  cases cache <;> exact ⟨rfl, rfl, rfl⟩

/-- C1: if the code-assigned final dataset is smaller than the loaded one,
the run returns the safety error carrying both counts and the output file is
untouched; a successful run never decreases the persisted count and an
unsuccessful run leaves the file unchanged — so over any sequence of runs
the persisted count never decreases between successful runs. -/
theorem c1_never_shrink (fs : FileState) (octopus external : Option (List Event))
    (existing : List Event) (h : loadedOrEmpty fs = some existing) :
    ((assignSequentialCodes (mergedDataset existing octopus external)).length < existing.length →
        fetchAndUpdateEvents fs octopus external
          = .safetyError existing.length
              (assignSequentialCodes (mergedDataset existing octopus external)).length
        ∧ fileAfter fs (fetchAndUpdateEvents fs octopus external) = fs)
    ∧ ((fetchAndUpdateEvents fs octopus external).isSuccess = true →
        datasetSize fs ≤ datasetSize (fileAfter fs (fetchAndUpdateEvents fs octopus external)))
    ∧ ((fetchAndUpdateEvents fs octopus external).isSuccess = false →
        fileAfter fs (fetchAndUpdateEvents fs octopus external) = fs) := by
  rw [fetchAndUpdateEvents_eq_of_loaded h]
  by_cases hch : hasChanges existing (mergedDataset existing octopus external) = false
  · rw [hch]
    simp only [Bool.not_false]
    rw [if_pos trivial]
    refine ⟨?_, fun _ => le_refl _, ?_⟩
    · intro hlt
      exfalso
      have hlen :=
        ((hasChanges_eq_false_iff existing (mergedDataset existing octopus external)).mp hch).1
      have hassign := assignSequentialCodes_length (mergedDataset existing octopus external)
      omega
    · intro hc
      simp [RunOutcome.isSuccess] at hc
  · have hch' : hasChanges existing (mergedDataset existing octopus external) = true := by
      cases hcase : hasChanges existing (mergedDataset existing octopus external)
      · exact absurd hcase hch
      · rfl
    rw [hch']
    simp only [Bool.not_true]
    rw [if_neg (by decide)]
    by_cases hlt : (assignSequentialCodes (mergedDataset existing octopus external)).length
        < existing.length
    · rw [if_pos hlt]
      refine ⟨fun _ => ⟨rfl, rfl⟩, ?_, fun _ => rfl⟩
      intro hc
      simp [RunOutcome.isSuccess] at hc
    · rw [if_neg hlt]
      refine ⟨fun hc => absurd hc hlt, ?_, ?_⟩
      · intro _
        show datasetSize fs ≤ datasetSize (saveEvents _)
        rw [datasetSize_saveEvents]
        have h1 := datasetSize_le_of_loaded h
        have hassign := assignSequentialCodes_length (mergedDataset existing octopus external)
        omega
      · intro hc
        simp [RunOutcome.isSuccess] at hc

theorem c1_witness :
    loadedOrEmpty (saveEvents [evNoon, evNoon]) = some [evNoon, evNoon]
    ∧ (assignSequentialCodes (mergedDataset [evNoon, evNoon] none (some [evNoonAlt]))).length
        < ([evNoon, evNoon] : List Event).length
    ∧ (fetchAndUpdateEvents (saveEvents [evNoon, evNoon]) none (some [evNoonAlt])
          = .safetyError ([evNoon, evNoon] : List Event).length
              (assignSequentialCodes (mergedDataset [evNoon, evNoon] none (some [evNoonAlt]))).length
        ∧ fileAfter (saveEvents [evNoon, evNoon])
              (fetchAndUpdateEvents (saveEvents [evNoon, evNoon]) none (some [evNoonAlt]))
            = saveEvents [evNoon, evNoon]) :=
  ⟨by decide, by decide,
    (c1_never_shrink (saveEvents [evNoon, evNoon]) none (some [evNoonAlt]) [evNoon, evNoon]
        (by decide)).1 (by decide)⟩

/-- C3: a run whose merged dataset matches the loaded one in count and in
merge-key membership returns success without touching the output file —
regardless of any field-value differences, because `hasChanges` compares
only count and keys. -/
theorem c3_no_change_no_write (fs : FileState) (octopus external : Option (List Event))
    (existing : List Event) (h : loadedOrEmpty fs = some existing)
    (hlen : (mergedDataset existing octopus external).length = existing.length)
    (hkeys : ∀ ev ∈ mergedDataset existing octopus external,
        eventKey ev ∈ existing.map eventKey) :
    fetchAndUpdateEvents fs octopus external = .noChange
    ∧ fileAfter fs (fetchAndUpdateEvents fs octopus external) = fs := by
  have hch : hasChanges existing (mergedDataset existing octopus external) = false :=
    (hasChanges_eq_false_iff _ _).mpr ⟨hlen.symm, hkeys⟩
  rw [fetchAndUpdateEvents_eq_of_loaded h, hch]
  simp only [Bool.not_false]
  rw [if_pos trivial]
  exact ⟨rfl, rfl⟩

theorem c3_witness :
    loadedOrEmpty (saveEvents [evNoon]) = some [evNoon]
    ∧ evNoonAlt.code ≠ evNoon.code
    ∧ evNoonAlt.isTest ≠ evNoon.isTest
    ∧ mergedDataset [evNoon] none (some [evNoonAlt]) = [evNoonAlt]
    ∧ (fetchAndUpdateEvents (saveEvents [evNoon]) none (some [evNoonAlt]) = .noChange
        ∧ fileAfter (saveEvents [evNoon])
              (fetchAndUpdateEvents (saveEvents [evNoon]) none (some [evNoonAlt]))
            = saveEvents [evNoon]) :=
  ⟨by decide, by decide, by decide, by decide,
    c3_no_change_no_write (saveEvents [evNoon]) none (some [evNoonAlt]) [evNoon]
      (by decide) (by decide) (by decide)⟩

/-- C8 counterexample: an event whose IsTest pointer is set to `false` is
rendered with an explicit `"is_test": false` member — `omitempty` on a Go
`*bool` checks the pointer for nil, not the pointed-at value — refuting
"the field is never rendered as an explicit false". -/
theorem c8_counterexample :
    evTestFalse.isTest = some false
    ∧ (⟨savedBytes [evTestFalse]⟩ : String)
        = "\x7b\n  \"data\": [\n    \x7b\n      \"start\": \"2024-01-01T12:00:00.000Z\",\n      \"end\": \"2024-01-01T13:00:00.000Z\",\n      \"code\": \"1\",\n      \"is_test\": false\n    \x7d\n  ]\n\x7d"
    ∧ (("is_test"), renderBool false) ∈ outputEventMembers (outputEventFor evTestFalse) :=
  ⟨by decide, by decide, by decide⟩

/-- C8 (amended): `saveEvents` writes a JSON object with a single `data`
array; each element carries `start` and `end` rendered with the millisecond
layout, `code` as a string, and an `is_test` member exactly when the event's
IsTest is set — absence means unset, and a set value is rendered verbatim,
including an explicit `false`. -/
theorem c8_output_shape (events : List Event) :
    saveEvents events = FileState.stored ⟨events.map outputEventFor⟩
    ∧ (∀ e ∈ events,
        (outputEventFor e).start = formatMilliStr e.startAt
        ∧ (outputEventFor e).«end» = formatMilliStr e.endAt
        ∧ (outputEventFor e).code = e.code)
    ∧ (∀ e ∈ events,
        (("is_test") ∈ (outputEventMembers (outputEventFor e)).map Prod.fst ↔ e.isTest ≠ none))
    ∧ (∀ e ∈ events, ∀ b, e.isTest = some b →
        (("is_test"), renderBool b) ∈ outputEventMembers (outputEventFor e)) := by
  refine ⟨rfl, fun e _ => ⟨rfl, rfl, rfl⟩, fun e _ => ?_, fun e _ b hb => ?_⟩
  · cases hcase : e.isTest with
    | none => simp +decide [outputEventMembers, outputEventFor, hcase]
    | some b => simp +decide [outputEventMembers, outputEventFor, hcase]
  · simp [outputEventMembers, outputEventFor, hb]

theorem c8_witness :
    saveEvents [evNoon, evTestFalse]
        = FileState.stored ⟨[evNoon, evTestFalse].map outputEventFor⟩
    ∧ (∀ e ∈ ([evNoon, evTestFalse] : List Event),
        (outputEventFor e).start = formatMilliStr e.startAt
        ∧ (outputEventFor e).«end» = formatMilliStr e.endAt
        ∧ (outputEventFor e).code = e.code)
    ∧ (∀ e ∈ ([evNoon, evTestFalse] : List Event),
        (("is_test") ∈ (outputEventMembers (outputEventFor e)).map Prod.fst ↔ e.isTest ≠ none))
    ∧ (∀ e ∈ ([evNoon, evTestFalse] : List Event), ∀ b, e.isTest = some b →
        (("is_test"), renderBool b) ∈ outputEventMembers (outputEventFor e)) :=
  c8_output_shape [evNoon, evTestFalse]

/-- The event as reconstructed by the load conversion loop: only the four
persisted fields survive, every other field has its zero value. -/
def persistedEvent (e : Event) : Event :=
  { code := e.code, startAt := e.startAt, endAt := e.endAt, isTest := e.isTest }

theorem eventsFromOutput_map_outputEventFor (events : List Event)
    (h : ∀ e ∈ events, validTime e.startAt = true ∧ validTime e.endAt = true) :
    eventsFromOutput (events.map outputEventFor) = .ok (events.map persistedEvent) := by
  induction events with
  | nil => rfl
  | cons e rest ih =>
    have he := h e (List.mem_cons_self e rest)
    have hst : parseMilliChars (outputEventFor e).start.data = some e.startAt := by
      show parseMilliChars (formatMilliChars e.startAt) = some e.startAt
      exact parseMilli_formatMilli _ he.1
    have hen : parseMilliChars (outputEventFor e).«end».data = some e.endAt := by
      show parseMilliChars (formatMilliChars e.endAt) = some e.endAt
      exact parseMilli_formatMilli _ he.2
    have hrest := ih fun x hx => h x (List.mem_cons_of_mem _ hx)
    simp only [List.map_cons, eventsFromOutput, hst, hen, hrest]
    rfl

/-- C9 counterexample: the year-10000 instant — a genuine whole-millisecond
UTC instant — formats to a five-digit year, which the four-digit parse of
the load path rejects, so save-then-load fails on it. -/
theorem c9_counterexample :
    loadExistingEvents (saveEvents [evYear10000]) = .error LoadError.badTimestamp := by
  decide

/-- C9 (amended to years ≤ 9999): for events whose timestamps are valid UTC
whole-millisecond instants with four-digit years, loading a file just
written by `saveEvents` succeeds and returns events equal to the originals
on (startAt, endAt, code, isTest), in the same order. -/
theorem c9_save_load_roundtrip (events : List Event)
    (h : ∀ e ∈ events, validTime e.startAt = true ∧ validTime e.endAt = true) :
    loadExistingEvents (saveEvents events) = .ok (events.map persistedEvent)
    ∧ (events.map persistedEvent).map (fun e => (e.startAt, e.endAt, e.code, e.isTest))
        = events.map fun e => (e.startAt, e.endAt, e.code, e.isTest) := by
  constructor
  · show eventsFromOutput (events.map outputEventFor) = _
    exact eventsFromOutput_map_outputEventFor events h
  · rw [List.map_map]
    rfl

theorem c9_witness :
    (∀ e ∈ ([evNoon, evNoonAlt] : List Event),
        validTime e.startAt = true ∧ validTime e.endAt = true)
    ∧ (loadExistingEvents (saveEvents [evNoon, evNoonAlt])
          = .ok ([evNoon, evNoonAlt].map persistedEvent)
        ∧ ([evNoon, evNoonAlt].map persistedEvent).map
              (fun e => (e.startAt, e.endAt, e.code, e.isTest))
            = [evNoon, evNoonAlt].map fun e => (e.startAt, e.endAt, e.code, e.isTest)) :=
  ⟨by decide, c9_save_load_roundtrip [evNoon, evNoonAlt] (by decide)⟩

/-- C10: when the loaded dataset's merge keys are pairwise distinct, the
merged dataset can never be smaller than the loaded one, so the safety-check
branch of `fetchAndUpdateEvents` is unreachable. -/
theorem c10_safety_unreachable_for_distinct_keys (fs : FileState)
    (octopus external : Option (List Event)) (existing : List Event)
    (h : loadedOrEmpty fs = some existing)
    (hnd : (existing.map eventKey).Nodup) :
    existing.length ≤ (mergedDataset existing octopus external).length
    ∧ ∀ m n : Nat, fetchAndUpdateEvents fs octopus external ≠ .safetyError m n := by
  have hle := length_le_mergedDataset existing octopus external hnd
  refine ⟨hle, ?_⟩
  intro m n
  rw [fetchAndUpdateEvents_eq_of_loaded h]
  by_cases hch : hasChanges existing (mergedDataset existing octopus external) = false
  · rw [hch]
    simp only [Bool.not_false]
    rw [if_pos trivial]
    intro hc
    cases hc
  · have hch' : hasChanges existing (mergedDataset existing octopus external) = true := by
      cases hcase : hasChanges existing (mergedDataset existing octopus external)
      · exact absurd hcase hch
      · rfl
    rw [hch']
    simp only [Bool.not_true]
    rw [if_neg (by decide)]
    have hassign := assignSequentialCodes_length (mergedDataset existing octopus external)
    rw [if_neg (by omega)]
    intro hc
    cases hc

theorem c10_witness :
    loadedOrEmpty (saveEvents [evNoon]) = some [evNoon]
    ∧ ([evNoon].map eventKey).Nodup
    ∧ (([evNoon] : List Event).length
          ≤ (mergedDataset [evNoon] none (some [evAfternoon])).length
        ∧ ∀ m n : Nat,
            fetchAndUpdateEvents (saveEvents [evNoon]) none (some [evAfternoon])
              ≠ .safetyError m n) :=
  ⟨by decide, by decide,
    c10_safety_unreachable_for_distinct_keys (saveEvents [evNoon]) none (some [evAfternoon])
      [evNoon] (by decide) (by decide)⟩

end Octoevents
